import Mathlib

/-!
Verification development for the Linux Kernel Visualizer repository.

The repository's core (per its specification) is the tree filtering,
path-resolution, highlight, and expansion-state logic of a React/TypeScript
application.  This file gives a shallow embedding of that core:

* text is `List Char`; JavaScript's `toLowerCase`/`trim`/`includes` on the
  ASCII data the application manipulates are embedded as `lower`, `trim`,
  `containsSub`;
* the `KernelNode` interface of `src/types.ts` becomes an inductive rose
  tree (the optional `children` array is embedded as a plain list, since
  every use in the source treats a missing array and an empty array
  identically: `node.children && node.children.length > 0`,
  `node.children?.map`, `if (node.children)`);
* `filterTree` and `findNodePath` from the main application file are
  embedded as recursive functions;
* the `HighlightText` component's span construction is embedded as
  functions producing tagged spans;
* the React component state (per-`TreeNode` `isExpanded` via `useState`,
  reconciliation by position and `name`-`index` key, the `visualizerKey`
  remount, and the `App` handlers) is embedded as an explicit event-step
  state machine.
-/

/-- Whitespace test used to embed JavaScript's `String.prototype.trim`
(restricted to the ASCII whitespace appearing in this application's data). -/
def isWsChar (c : Char) : Bool :=
  c = ' ' || c = '\t' || c = '\n' || c = '\r'

/-- ASCII embedding of JavaScript's `String.prototype.toLowerCase`:
uppercase ASCII letters map to their lowercase forms, everything else is
unchanged.  Written as an explicit table so that its action on each
character is transparent to the kernel. -/
def lowerChar (c : Char) : Char :=
  match c with
  | 'A' => 'a' | 'B' => 'b' | 'C' => 'c' | 'D' => 'd' | 'E' => 'e'
  | 'F' => 'f' | 'G' => 'g' | 'H' => 'h' | 'I' => 'i' | 'J' => 'j'
  | 'K' => 'k' | 'L' => 'l' | 'M' => 'm' | 'N' => 'n' | 'O' => 'o'
  | 'P' => 'p' | 'Q' => 'q' | 'R' => 'r' | 'S' => 's' | 'T' => 't'
  | 'U' => 'u' | 'V' => 'v' | 'W' => 'w' | 'X' => 'x' | 'Y' => 'y'
  | 'Z' => 'z'
  | c => c

/-- Lowercase an entire string (`s.toLowerCase()`). -/
def lower (s : List Char) : List Char := s.map lowerChar

/-- Trim leading and trailing whitespace (`s.trim()`). -/
def trim (s : List Char) : List Char :=
  (((s.dropWhile isWsChar).reverse).dropWhile isWsChar).reverse

/-- Substring containment (`s.includes(sub)`): some suffix of `s` starts
with `sub`. -/
def containsSub : List Char → List Char → Bool
  | [], sub => sub.isPrefixOf []
  | c :: t, sub => sub.isPrefixOf (c :: t) || containsSub t sub

/-- The `KernelNode` interface of `src/types.ts`: name, summary,
description, and a list of children. -/
inductive KernelNode where
  | mk (name summary description : List Char) (children : List KernelNode)

mutual

/-- Structural equality test for `KernelNode`. -/
def KernelNode.beq : KernelNode → KernelNode → Bool
  | KernelNode.mk n1 s1 d1 c1, KernelNode.mk n2 s2 d2 c2 =>
    n1 == n2 && s1 == s2 && d1 == d2 && KernelNode.beqList c1 c2

/-- Structural equality test for lists of `KernelNode`. -/
def KernelNode.beqList : List KernelNode → List KernelNode → Bool
  | [], [] => true
  | a :: as, b :: bs => KernelNode.beq a b && KernelNode.beqList as bs
  | _, _ => false

end

mutual

theorem KernelNode.beq_iff : ∀ (a b : KernelNode), KernelNode.beq a b = true ↔ a = b
  | KernelNode.mk n1 s1 d1 c1, KernelNode.mk n2 s2 d2 c2 => by
    simp [KernelNode.beq, KernelNode.beqList_iff c1 c2, and_assoc]

theorem KernelNode.beqList_iff :
    ∀ (as bs : List KernelNode), KernelNode.beqList as bs = true ↔ as = bs
  | [], [] => by simp [KernelNode.beqList]
  | [], _ :: _ => by simp [KernelNode.beqList]
  | _ :: _, [] => by simp [KernelNode.beqList]
  | a :: as, b :: bs => by
    simp [KernelNode.beqList, KernelNode.beq_iff a b, KernelNode.beqList_iff as bs]

end

instance : DecidableEq KernelNode := fun a b =>
  decidable_of_iff _ (KernelNode.beq_iff a b)

namespace KernelNode

def name : KernelNode → List Char
  | mk n _ _ _ => n

def summary : KernelNode → List Char
  | mk _ s _ _ => s

def description : KernelNode → List Char
  | mk _ _ d _ => d

def children : KernelNode → List KernelNode
  | mk _ _ _ c => c

@[simp] theorem name_mk (n s d c) : (mk n s d c).name = n := rfl
@[simp] theorem summary_mk (n s d c) : (mk n s d c).summary = s := rfl
@[simp] theorem description_mk (n s d c) : (mk n s d c).description = d := rfl
@[simp] theorem children_mk (n s d c) : (mk n s d c).children = c := rfl

end KernelNode

/-- The self-match test of `filterTree` (`isMatch` in the source): the
lowercased name, summary, or description contains the processed term. -/
def selfMatch (n : KernelNode) (lt : List Char) : Bool :=
  containsSub (lower n.name) lt || containsSub (lower n.summary) lt ||
    containsSub (lower n.description) lt

mutual

/-- Embedding of `filterTree` from the main application file: lowercase and
trim the term; on an empty processed term return the node unchanged;
otherwise filter the children recursively (dropping `null` results, which
is `List.filterMap`, written here as the mutual `filterChildren`), keep the
node when it self-matches or has a surviving child, and rebuild it with the
filtered children. -/
def filterTree (node : KernelNode) (term : List Char) : Option KernelNode :=
  match node with
  | KernelNode.mk nm sm ds cs =>
    let lowerCaseTerm := trim (lower term)
    if lowerCaseTerm = [] then
      some (KernelNode.mk nm sm ds cs)
    else
      let filteredChildren := filterChildren cs lowerCaseTerm
      if selfMatch (KernelNode.mk nm sm ds cs) lowerCaseTerm || !filteredChildren.isEmpty then
        some (KernelNode.mk nm sm ds filteredChildren)
      else
        none

/-- `children?.map(child => filterTree(child, term)).filter(child => child !== null)`. -/
def filterChildren (cs : List KernelNode) (term : List Char) : List KernelNode :=
  match cs with
  | [] => []
  | c :: rest =>
    match filterTree c term with
    | some c' => c' :: filterChildren rest term
    | none => filterChildren rest term

end

/-! Basic facts about the text primitives. -/

theorem isWsChar_lowerChar (c : Char) : isWsChar (lowerChar c) = isWsChar c := by
  unfold lowerChar
  split <;> rfl

theorem lowerChar_eq_newline (c : Char) : lowerChar c = '\n' ↔ c = '\n' := by
  unfold lowerChar
  split <;> simp_all

theorem lowerChar_idem (c : Char) : lowerChar (lowerChar c) = lowerChar c := by
  generalize h : lowerChar c = d
  unfold lowerChar at h
  split at h <;>
    (rw [← h]; first
      | rfl
      | (unfold lowerChar; split <;> simp_all))

theorem lower_lower (s : List Char) : lower (lower s) = lower s := by
  simp [lower, List.map_map, Function.comp, lowerChar_idem]

theorem mem_newline_lower (s : List Char) : '\n' ∈ lower s ↔ '\n' ∈ s := by
  simp only [lower, List.mem_map]
  constructor
  · rintro ⟨c, hc, h⟩
    rw [(lowerChar_eq_newline c).mp h] at hc
    exact hc
  · intro h
    exact ⟨'\n', h, rfl⟩

theorem dropWhile_isWs_lower (s : List Char) :
    (lower s).dropWhile isWsChar = lower (s.dropWhile isWsChar) := by
  have hcomp : (isWsChar ∘ lowerChar) = isWsChar := funext fun c => isWsChar_lowerChar c
  rw [lower, List.dropWhile_map, hcomp, lower]

theorem trim_lower (s : List Char) : trim (lower s) = lower (trim s) := by
  unfold trim
  rw [dropWhile_isWs_lower, lower, ← List.map_reverse, ← lower, dropWhile_isWs_lower,
    lower, ← List.map_reverse]
  rfl

theorem dropWhile_dropWhile_self (p : α → Bool) (l : List α) :
    (l.dropWhile p).dropWhile p = l.dropWhile p := by
  induction l with
  | nil => rfl
  | cons a l ih =>
    by_cases h : p a
    · simp [List.dropWhile_cons, h, ih]
    · simp [List.dropWhile_cons, h]

theorem dropWhile_eq_self_of_head (p : α → Bool) (l : List α)
    (h : ∀ x, l.head? = some x → p x = false) : l.dropWhile p = l := by
  cases l with
  | nil => rfl
  | cons a t =>
    have := h a rfl
    simp [List.dropWhile_cons, this]

theorem trim_idem (s : List Char) : trim (trim s) = trim s := by
  have hhead : ∀ x, (trim s).head? = some x → isWsChar x = false := by
    intro x hx
    unfold trim at hx
    rcases hsuf : (s.dropWhile isWsChar).reverse.dropWhile isWsChar with _ | ⟨b, bs⟩
    · rw [hsuf] at hx
      simp at hx
    · -- the trimmed list is a prefix of `s.dropWhile isWsChar`, so its head is the
      -- head of the dropWhile result, which does not satisfy the predicate
      obtain ⟨t, ht⟩ : ∃ t, t ++ (b :: bs) = (s.dropWhile isWsChar).reverse := by
        have := List.dropWhile_suffix (l := (s.dropWhile isWsChar).reverse) isWsChar
        rw [hsuf] at this
        exact this
      have hA : s.dropWhile isWsChar = (b :: bs).reverse ++ t.reverse := by
        have := congrArg List.reverse ht
        simpa using this.symm
      rw [hsuf] at hx
      rcases hrev : (b :: bs).reverse with _ | ⟨c, cs⟩
      · simp at hrev
      · rw [hrev] at hA hx
        simp at hx
        have hhd : (s.dropWhile isWsChar).head? = some c := by
          rw [hA]; rfl
        have := List.head?_dropWhile_not isWsChar s
        rw [hhd] at this
        rwa [hx] at this
  have h1 : (trim s).dropWhile isWsChar = trim s :=
    dropWhile_eq_self_of_head _ _ hhead
  show (((trim s).dropWhile isWsChar).reverse.dropWhile isWsChar).reverse = trim s
  rw [h1]
  show (((((s.dropWhile isWsChar).reverse.dropWhile isWsChar).reverse).reverse).dropWhile
    isWsChar).reverse = trim s
  rw [List.reverse_reverse, dropWhile_dropWhile_self]
  rfl

theorem trim_lower_canon (t : List Char) :
    trim (lower (trim (lower t))) = trim (lower t) := by
  rw [trim_lower (trim (lower t)), trim_idem, trim_lower, lower_lower, ← trim_lower]

theorem trim_lower_eq_nil (t : List Char) (h : trim t = []) : trim (lower t) = [] := by
  rw [trim_lower, h]
  rfl

theorem trim_lower_eq_lower (t : List Char) (h : trim t = t) :
    trim (lower t) = lower t := by
  rw [trim_lower, h]

/-! Characterization of prefix testing and substring containment. -/

theorem isPrefixOf_char (p s : List Char) : p.isPrefixOf s = true ↔ ∃ t, s = p ++ t := by
  induction p generalizing s with
  | nil => simp [List.isPrefixOf]
  | cons a p ih =>
    cases s with
    | nil => simp [List.isPrefixOf]
    | cons b t =>
      simp only [List.isPrefixOf, Bool.and_eq_true, beq_iff_eq, ih, List.cons_append,
        List.cons.injEq]
      constructor
      · rintro ⟨rfl, u, rfl⟩
        exact ⟨u, rfl, rfl⟩
      · rintro ⟨u, rfl, rfl⟩
        exact ⟨rfl, u, rfl⟩

theorem containsSub_iff (s sub : List Char) :
    containsSub s sub = true ↔ ∃ a b, s = a ++ sub ++ b := by
  induction s with
  | nil =>
    simp only [containsSub, isPrefixOf_char]
    constructor
    · rintro ⟨t, ht⟩
      obtain ⟨rfl, rfl⟩ := List.append_eq_nil.mp ht.symm
      exact ⟨[], [], rfl⟩
    · rintro ⟨a, b, h⟩
      obtain ⟨h1, rfl⟩ := List.append_eq_nil.mp h.symm
      obtain ⟨rfl, rfl⟩ := List.append_eq_nil.mp h1
      exact ⟨[], rfl⟩
  | cons c t ih =>
    simp only [containsSub, Bool.or_eq_true, isPrefixOf_char, ih]
    constructor
    · rintro (⟨u, hu⟩ | ⟨a, b, rfl⟩)
      · exact ⟨[], u, by simpa using hu⟩
      · exact ⟨c :: a, b, rfl⟩
    · rintro ⟨a, b, h⟩
      cases a with
      | nil =>
        left
        exact ⟨b, by simpa using h⟩
      | cons a' as =>
        right
        simp only [List.cons_append, List.cons.injEq] at h
        exact ⟨as, b, h.2⟩

/-! The pre-order list of all subtrees of a node (the node itself first). -/

mutual

/-- All subtrees of a node, in depth-first pre-order. -/
def subtrees : KernelNode → List KernelNode
  | KernelNode.mk nm sm ds cs => KernelNode.mk nm sm ds cs :: subtreesList cs

/-- All subtrees of the trees of a list, in order. -/
def subtreesList : List KernelNode → List KernelNode
  | [] => []
  | c :: cs => subtrees c ++ subtreesList cs

end

mutual

/-- Embedding of the inner `search` closure of `findNodePath`: push the node,
succeed if it is the target, otherwise try the children left to right; the
returned value is the final contents of the mutated `path` array on success. -/
def searchPath (target : KernelNode) : KernelNode → Option (List KernelNode)
  | KernelNode.mk nm sm ds cs =>
    if KernelNode.mk nm sm ds cs = target then
      some [KernelNode.mk nm sm ds cs]
    else
      match searchPathKids target cs with
      | some p => some (KernelNode.mk nm sm ds cs :: p)
      | none => none

/-- The `for (const child of node.children)` loop of `search`. -/
def searchPathKids (target : KernelNode) : List KernelNode → Option (List KernelNode)
  | [] => none
  | c :: cs =>
    match searchPath target c with
    | some p => some p
    | none => searchPathKids target cs

end

/-- Embedding of `findNodePath` from the main application file: the path from
`root` to the first node equal to `target` in depth-first pre-order, or the
empty list when the search fails. -/
def findNodePath (root target : KernelNode) : List KernelNode :=
  (searchPath target root).getD []

/-! Structural induction helpers for `KernelNode`. -/

theorem sizeOf_lt_of_mem_children {c n : KernelNode} (h : c ∈ n.children) :
    sizeOf c < sizeOf n := by
  cases n with
  | mk nm sm ds cs =>
    have hcs : c ∈ cs := by simpa using h
    have := List.sizeOf_lt_of_mem hcs
    simp only [KernelNode.mk.sizeOf_spec]
    omega

theorem KernelNode.inductionOn {P : KernelNode → Prop} (n : KernelNode)
    (h : ∀ nm sm ds cs, (∀ c ∈ cs, P c) → P (KernelNode.mk nm sm ds cs)) : P n := by
  generalize hk : sizeOf n = k
  induction k using Nat.strong_induction_on generalizing n with
  | _ k ih =>
    cases n with
    | mk nm sm ds cs =>
      subst hk
      exact h nm sm ds cs fun c hc =>
        ih (sizeOf c) (sizeOf_lt_of_mem_children (n := KernelNode.mk nm sm ds cs)
          (by simpa using hc)) c rfl

theorem mem_subtreesList {m : KernelNode} {cs : List KernelNode} :
    m ∈ subtreesList cs ↔ ∃ c ∈ cs, m ∈ subtrees c := by
  induction cs with
  | nil => simp [subtreesList]
  | cons c cs ih => simp [subtreesList, ih]

theorem self_mem_subtrees (n : KernelNode) : n ∈ subtrees n := by
  cases n with
  | mk nm sm ds cs => rw [subtrees]; exact List.mem_cons_self _ _

theorem mem_subtrees_iff {m : KernelNode} (nm sm ds cs) :
    m ∈ subtrees (KernelNode.mk nm sm ds cs) ↔
      m = KernelNode.mk nm sm ds cs ∨ ∃ c ∈ cs, m ∈ subtrees c := by
  rw [subtrees]
  simp [mem_subtreesList]

/-! Characterization of `filterTree`. -/

theorem filterChildren_eq_filterMap (cs : List KernelNode) (term : List Char) :
    filterChildren cs term = cs.filterMap fun c => filterTree c term := by
  induction cs with
  | nil => rfl
  | cons c rest ih =>
    rw [filterChildren]
    cases h : filterTree c term <;> simp [h, ih]

theorem filterTree_canon (n : KernelNode) (term : List Char) :
    filterTree n (trim (lower term)) = filterTree n term := by
  cases n with
  | mk nm sm ds cs =>
    rw [filterTree, filterTree, trim_lower_canon]

theorem filterTree_eq_of_ne (nm sm ds cs term) (h : trim (lower term) ≠ []) :
    filterTree (KernelNode.mk nm sm ds cs) term =
      if selfMatch (KernelNode.mk nm sm ds cs) (trim (lower term))
          || !(filterChildren cs (trim (lower term))).isEmpty then
        some (KernelNode.mk nm sm ds (filterChildren cs (trim (lower term))))
      else none := by
  rw [filterTree, if_neg h]

theorem filterChildren_ne_nil_iff (cs : List KernelNode) (term : List Char) :
    (filterChildren cs (trim (lower term))).isEmpty = false ↔
      ∃ c ∈ cs, (filterTree c term).isSome = true := by
  rw [filterChildren_eq_filterMap, List.isEmpty_eq_false_iff_exists_mem]
  constructor
  · rintro ⟨x, hx⟩
    rcases List.mem_filterMap.mp hx with ⟨c, hc, hfc⟩
    refine ⟨c, hc, ?_⟩
    rw [← filterTree_canon, hfc]
    rfl
  · rintro ⟨c, hc, hfc⟩
    rcases Option.isSome_iff_exists.mp hfc with ⟨x, hx⟩
    exact ⟨x, List.mem_filterMap.mpr ⟨c, hc, by rw [filterTree_canon, hx]⟩⟩

theorem filterTree_isSome_iff (n : KernelNode) (term : List Char)
    (h : trim (lower term) ≠ []) :
    (filterTree n term).isSome = true ↔
      (selfMatch n (trim (lower term)) = true ∨
        ∃ c ∈ n.children, (filterTree c term).isSome = true) := by
  cases n with
  | mk nm sm ds cs =>
    rw [filterTree_eq_of_ne nm sm ds cs term h]
    rcases hsm : selfMatch (KernelNode.mk nm sm ds cs) (trim (lower term)) with _ | _
    · rcases hne : (filterChildren cs (trim (lower term))).isEmpty with _ | _
      · have hex := (filterChildren_ne_nil_iff cs term).mp hne
        simp [hsm, hne, hex]
      · have hnex : ¬ ∃ c ∈ cs, (filterTree c term).isSome = true := by
          intro hc
          have := (filterChildren_ne_nil_iff cs term).mpr hc
          rw [hne] at this
          cases this
        simp [hsm, hne, hnex]
    · simp [hsm]

theorem filterTree_some_exists_match (n : KernelNode) (term : List Char)
    (h : trim (lower term) ≠ []) (hs : (filterTree n term).isSome = true) :
    ∃ m ∈ subtrees n, selfMatch m (trim (lower term)) = true := by
  induction n using KernelNode.inductionOn with
  | h nm sm ds cs ih =>
    rcases (filterTree_isSome_iff _ term h).mp hs with hself | ⟨c, hc, hcs⟩
    · exact ⟨KernelNode.mk nm sm ds cs, self_mem_subtrees _, hself⟩
    · rcases ih c (by simpa using hc) hcs with ⟨m, hm, hmm⟩
      exact ⟨m, (mem_subtrees_iff nm sm ds cs).mpr (Or.inr ⟨c, by simpa using hc, hm⟩), hmm⟩

/-! Characterization of `searchPath` and `findNodePath`. -/

theorem searchPathKids_some {target : KernelNode} {cs : List KernelNode}
    {p : List KernelNode} (h : searchPathKids target cs = some p) :
    ∃ c ∈ cs, searchPath target c = some p := by
  induction cs with
  | nil => cases h
  | cons c rest ih =>
    rw [searchPathKids] at h
    cases hc : searchPath target c with
    | some q =>
      rw [hc] at h
      cases h
      exact ⟨c, List.mem_cons_self _ _, hc⟩
    | none =>
      rw [hc] at h
      rcases ih h with ⟨c', hc', hq⟩
      exact ⟨c', List.mem_cons_of_mem _ hc', hq⟩

theorem searchPath_spec {target : KernelNode} (n : KernelNode)
    {p : List KernelNode} (h : searchPath target n = some p) :
    p.head? = some n ∧ p.getLast? = some target ∧
      List.Chain' (fun a b => b ∈ a.children) p := by
  induction n using KernelNode.inductionOn generalizing p with
  | h nm sm ds cs ih =>
    rw [searchPath] at h
    by_cases heq : KernelNode.mk nm sm ds cs = target
    · rw [if_pos heq] at h
      cases h
      refine ⟨rfl, ?_, List.chain'_singleton _⟩
      rw [List.getLast?_singleton, heq]
    · rw [if_neg heq] at h
      cases hk : searchPathKids target cs with
      | none => rw [hk] at h; cases h
      | some q =>
        rw [hk] at h
        cases h
        rcases searchPathKids_some hk with ⟨c, hc, hq⟩
        rcases ih c hc hq with ⟨hhd, hlast, hchain⟩
        rcases q with _ | ⟨c', q'⟩
        · cases hhd
        · cases hhd
          refine ⟨rfl, ?_, ?_⟩
          · rw [List.getLast?_cons_cons]
            exact hlast
          · rw [List.chain'_cons']
            exact ⟨fun y hy => by cases hy; simpa using hc, hchain⟩

theorem searchPathKids_isSome {target : KernelNode} {cs : List KernelNode}
    (h : ∃ c ∈ cs, (searchPath target c).isSome = true) :
    (searchPathKids target cs).isSome = true := by
  induction cs with
  | nil => simp at h
  | cons c rest ih =>
    rw [searchPathKids]
    cases hc : searchPath target c with
    | some q => rfl
    | none =>
      rcases h with ⟨c', hc', hq⟩
      rcases List.mem_cons.mp hc' with rfl | hmem
      · rw [hc] at hq; cases hq
      · exact ih ⟨c', hmem, hq⟩

theorem searchPath_isSome_of_mem {N : KernelNode} (n : KernelNode)
    (h : N ∈ subtrees n) : (searchPath N n).isSome = true := by
  induction n using KernelNode.inductionOn with
  | h nm sm ds cs ih =>
    rw [searchPath]
    by_cases heq : KernelNode.mk nm sm ds cs = N
    · rw [if_pos heq]; rfl
    · rw [if_neg heq]
      rcases (mem_subtrees_iff nm sm ds cs).mp h with rfl | ⟨c, hc, hmem⟩
      · exact absurd rfl heq
      · have := searchPathKids_isSome ⟨c, hc, ih c hc hmem⟩
        cases hk : searchPathKids N cs with
        | none => rw [hk] at this; cases this
        | some q => rfl

/-! Embedding of the `HighlightText` component.  The component splits the
text on a regex built from the literally-escaped highlight term (flags `gi`),
producing an alternating sequence of plain parts and captured matches, and
tags each part; in the default (`p`) mode the text is first split on `'\n'`
and each line is processed independently. -/

/-- One rendered fragment of `HighlightText`: either an unstyled part or a
highlighted (captured) part. -/
inductive Span where
  | plain (t : List Char)
  | matched (t : List Char)
deriving DecidableEq

/-- The text carried by a span. -/
def Span.text : Span → List Char
  | Span.plain t => t
  | Span.matched t => t

/-- Whether a span is a highlighted match. -/
def Span.isMatched : Span → Bool
  | Span.plain _ => false
  | Span.matched _ => true

/-- Locate the leftmost case-insensitive occurrence of `term` in `text`,
returning the part before it, the matched slice (in its original case), and
the remainder. -/
def splitOnce (term : List Char) : List Char → Option (List Char × List Char × List Char)
  | [] => none
  | c :: rest =>
    if (lower term).isPrefixOf (lower (c :: rest)) then
      some ([], (c :: rest).take term.length, (c :: rest).drop term.length)
    else
      match splitOnce term rest with
      | some (b, m, a) => some (c :: b, m, a)
      | none => none

/-- Fuelled worker for `lineSpans`; the fuel only bounds the recursion depth
and is always supplied larger than the text length, so the fuel-exhausted
arm is never reached. -/
def lineSpansF : Nat → List Char → List Char → List Span
  | 0, _, text => [Span.plain text]
  | fuel + 1, term, text =>
    if term = [] then [Span.plain text]
    else
      match splitOnce term text with
      | none => [Span.plain text]
      | some (b, m, a) => Span.plain b :: Span.matched m :: lineSpansF fuel term a

/-- The alternating plain/matched spans produced for a single line: the
embedding of `line.split(regex).map(highlightPart)` with the
case-insensitive literal regex built from `term`.  Plain residue parts never
contain a full occurrence of the term, so the component's stateful
`regex.test` classifies exactly the captured parts as matches. -/
def lineSpans (term text : List Char) : List Span :=
  lineSpansF (text.length + 1) term text

/-- `text.split('\n')` of JavaScript: the list of lines, where the
separators are consumed; splitting the empty text yields one empty line. -/
def splitLines : List Char → List (List Char)
  | [] => [[]]
  | c :: rest =>
    match splitLines rest with
    | [] => [[]]
    | l :: ls => if c = '\n' then [] :: l :: ls else (c :: l) :: ls

/-- Join lines back with `'\n'` separators (inverse of `splitLines`). -/
def joinLines : List (List Char) → List Char
  | [] => []
  | [l] => l
  | l :: l' :: ls => l ++ '\n' :: joinLines (l' :: ls)

/-- `HighlightText` in inline (`as="span"`) mode: on a term that trims to
empty the whole text is a single plain fragment, otherwise the alternating
spans of the whole text. -/
def locateMatchesInline (text term : List Char) : List Span :=
  if trim term = [] then [Span.plain text]
  else lineSpans term text

/-- `HighlightText` in multi-line (`as="p"`, the default) mode: the text is
split on line breaks and each line is highlighted independently; on a term
that trims to empty each line is a single plain fragment. -/
def locateMatchesMulti (text term : List Char) : List (List Span) :=
  if trim term = [] then (splitLines text).map fun l => [Span.plain l]
  else (splitLines text).map fun l => lineSpans term l

/-- Concatenation of the text of a list of spans. -/
def spansText (l : List Span) : List Char := (l.map Span.text).flatten

/-- Whether a list of spans contains at least one highlighted match. -/
def hasMatched (l : List Span) : Bool := l.any Span.isMatched

/-- The spans alternate plain, matched, plain, matched, …, plain. -/
def altCheck : List Span → Bool
  | [Span.plain _] => true
  | Span.plain _ :: Span.matched _ :: rest => altCheck rest
  | _ => false

/-- The text contains no line break character. -/
def noNewline (l : List Char) : Bool := l.all fun c => !(c = '\n')

/-- All three text fields of a node, highlighted as the components render
them (name and summary inline in `TreeNode`, description in multi-line mode
in the detail panel), produce at least one matched span. -/
def nodeHighlightHit (n : KernelNode) (term : List Char) : Bool :=
  hasMatched (locateMatchesInline n.name term) ||
    hasMatched (locateMatchesInline n.summary term) ||
    (locateMatchesMulti n.description term).any hasMatched

/-! Properties of `splitOnce` and `lineSpans`. -/

theorem splitOnce_decomp : ∀ {term text b m a : List Char},
    splitOnce term text = some (b, m, a) → text = b ++ m ++ a ∧ m.length = term.length := by
  intro term text
  induction text with
  | nil => intro b m a h; cases h
  | cons c rest ih =>
    intro b m a h
    rw [splitOnce] at h
    split at h
    case isTrue hp =>
      cases h
      refine ⟨by simp, ?_⟩
      rcases (isPrefixOf_char _ _).mp hp with ⟨t, ht⟩
      have hlen := congrArg List.length ht
      simp [lower] at hlen
      simp [List.length_take]
      omega
    case isFalse hp =>
      cases hsr : splitOnce term rest with
      | none => rw [hsr] at h; cases h
      | some triple =>
        obtain ⟨b', m', a'⟩ := triple
        rw [hsr] at h
        cases h
        obtain ⟨h1, h2⟩ := ih hsr
        exact ⟨by simp [h1], h2⟩

theorem splitOnce_rest_lt {term text b m a : List Char} (ht : term ≠ [])
    (h : splitOnce term text = some (b, m, a)) : a.length < text.length := by
  obtain ⟨h1, h2⟩ := splitOnce_decomp h
  have := congrArg List.length h1
  simp at this
  have hm : 0 < m.length := by
    rw [h2]
    exact List.length_pos.mpr ht
  omega

theorem spansText_lineSpansF (f : Nat) : ∀ (term text : List Char), text.length < f →
    spansText (lineSpansF f term text) = text := by
  induction f with
  | zero => intro term text h; exact absurd h (Nat.not_lt_zero _)
  | succ f ih =>
    intro term text h
    rw [lineSpansF]
    by_cases ht : term = []
    · rw [if_pos ht]
      simp [spansText, Span.text]
    · rw [if_neg ht]
      cases hs : splitOnce term text with
      | none => simp [spansText, Span.text]
      | some triple =>
        obtain ⟨b, m, a⟩ := triple
        have ha : a.length < f := by
          have := splitOnce_rest_lt ht hs
          omega
        obtain ⟨hd, _⟩ := splitOnce_decomp hs
        simp only [spansText, List.map_cons, List.flatten_cons, Span.text]
        rw [show (List.map Span.text (lineSpansF f term a)).flatten
            = spansText (lineSpansF f term a) from rfl, ih term a ha]
        simp [hd]

theorem spansText_lineSpans (term text : List Char) :
    spansText (lineSpans term text) = text :=
  spansText_lineSpansF _ term text (Nat.lt_succ_self _)

theorem altCheck_lineSpansF (f : Nat) : ∀ (term text : List Char), text.length < f →
    altCheck (lineSpansF f term text) = true := by
  induction f with
  | zero => intro term text h; exact absurd h (Nat.not_lt_zero _)
  | succ f ih =>
    intro term text h
    rw [lineSpansF]
    by_cases ht : term = []
    · rw [if_pos ht]
      rfl
    · rw [if_neg ht]
      cases hs : splitOnce term text with
      | none => rfl
      | some triple =>
        obtain ⟨b, m, a⟩ := triple
        have ha : a.length < f := by
          have := splitOnce_rest_lt ht hs
          omega
        rw [altCheck]
        exact ih term a ha

theorem altCheck_lineSpans (term text : List Char) :
    altCheck (lineSpans term text) = true :=
  altCheck_lineSpansF _ term text (Nat.lt_succ_self _)

theorem hasMatched_lineSpansF (f : Nat) : ∀ (term text : List Char), text.length < f →
    term ≠ [] → hasMatched (lineSpansF f term text) = (splitOnce term text).isSome := by
  induction f with
  | zero => intro term text h; exact absurd h (Nat.not_lt_zero _)
  | succ f _ =>
    intro term text h ht
    rw [lineSpansF, if_neg ht]
    cases hs : splitOnce term text with
    | none => rfl
    | some triple =>
      obtain ⟨b, m, a⟩ := triple
      simp [hasMatched, Span.isMatched]

theorem hasMatched_lineSpans (term text : List Char) (ht : term ≠ []) :
    hasMatched (lineSpans term text) = (splitOnce term text).isSome :=
  hasMatched_lineSpansF _ term text (Nat.lt_succ_self _) ht

theorem noNewline_sublist {u v : List Char} (h : ∀ c ∈ v, c ∈ u)
    (hu : noNewline u = true) : noNewline v = true := by
  simp only [noNewline, List.all_eq_true] at hu ⊢
  intro c hc
  exact hu c (h c hc)

theorem noNewline_lineSpansF (f : Nat) : ∀ (term text : List Char), text.length < f →
    noNewline text = true →
    (lineSpansF f term text).all (fun s => noNewline (Span.text s)) = true := by
  induction f with
  | zero => intro term text h; exact absurd h (Nat.not_lt_zero _)
  | succ f ih =>
    intro term text h hnl
    rw [lineSpansF]
    by_cases ht : term = []
    · rw [if_pos ht]
      simpa [Span.text] using hnl
    · rw [if_neg ht]
      cases hs : splitOnce term text with
      | none => simpa [Span.text] using hnl
      | some triple =>
        obtain ⟨b, m, a⟩ := triple
        have ha : a.length < f := by
          have := splitOnce_rest_lt ht hs
          omega
        obtain ⟨hd, _⟩ := splitOnce_decomp hs
        have hb : noNewline b = true :=
          noNewline_sublist (fun c hc => by rw [hd]; simp [hc]) hnl
        have hm : noNewline m = true :=
          noNewline_sublist (fun c hc => by rw [hd]; simp [hc]) hnl
        have haa : noNewline a = true :=
          noNewline_sublist (fun c hc => by rw [hd]; simp [hc]) hnl
        simp only [List.all_cons, Span.text, Bool.and_eq_true]
        exact ⟨hb, hm, by simpa using ih term a ha haa⟩

theorem noNewline_lineSpans (term text : List Char) (hnl : noNewline text = true) :
    (lineSpans term text).all (fun s => noNewline (Span.text s)) = true :=
  noNewline_lineSpansF _ term text (Nat.lt_succ_self _) hnl

theorem splitOnce_isSome (term : List Char) (ht : term ≠ []) :
    ∀ text : List Char, (splitOnce term text).isSome = containsSub (lower text) (lower term) := by
  have hlt : lower term ≠ [] := by
    intro hc
    exact ht (List.map_eq_nil_iff.mp hc)
  intro text
  induction text with
  | nil =>
    rw [splitOnce]
    show false = containsSub [] (lower term)
    rw [containsSub]
    cases hl : lower term with
    | nil => exact absurd hl hlt
    | cons a t => rfl
  | cons c rest ih =>
    rw [splitOnce]
    have hlow : lower (c :: rest) = lowerChar c :: lower rest := rfl
    rw [hlow, containsSub, ← hlow]
    by_cases hp : ((lower term).isPrefixOf (lower (c :: rest))) = true
    · rw [if_pos hp, hp, Bool.true_or]
      rfl
    · rw [if_neg hp]
      have hp' : (lower term).isPrefixOf (lower (c :: rest)) = false := by
        cases hb : (lower term).isPrefixOf (lower (c :: rest)) with
        | false => rfl
        | true => exact absurd hb hp
      rw [hp', Bool.false_or]
      cases hsr : splitOnce term rest with
      | none =>
        rw [hsr] at ih
        simpa using ih
      | some triple =>
        rw [hsr] at ih
        simpa using ih

/-! Properties of `splitLines`. -/

theorem splitLines_ne_nil (t : List Char) : splitLines t ≠ [] := by
  cases t with
  | nil => simp [splitLines]
  | cons c rest =>
    rw [splitLines]
    cases splitLines rest with
    | nil => simp
    | cons l ls => by_cases h : c = '\n' <;> simp [h]

theorem splitLines_cons_eq {c : Char} {rest l : List Char} {ls : List (List Char)}
    (hs : splitLines rest = l :: ls) :
    splitLines (c :: rest) = if c = '\n' then [] :: l :: ls else (c :: l) :: ls := by
  rw [splitLines, hs]

theorem joinLines_splitLines (t : List Char) : joinLines (splitLines t) = t := by
  induction t with
  | nil => rfl
  | cons c rest ih =>
    cases hs : splitLines rest with
    | nil => exact absurd hs (splitLines_ne_nil rest)
    | cons l ls =>
      rw [splitLines_cons_eq hs]
      rw [hs] at ih
      by_cases h : c = '\n'
      · subst h
        rw [if_pos rfl, joinLines]
        simpa using ih
      · rw [if_neg h]
        cases ls with
        | nil =>
          rw [joinLines]
          rw [joinLines] at ih
          simp [ih]
        | cons l2 ls2 =>
          rw [joinLines]
          rw [joinLines] at ih
          simp [← List.cons_append, ih]

theorem firstLine_decomp (t : List Char) :
    ∀ {l0 : List Char} {ls : List (List Char)}, splitLines t = l0 :: ls →
      ∃ v, t = l0 ++ v := by
  induction t with
  | nil =>
    intro l0 ls h
    rw [splitLines] at h
    cases h
    exact ⟨[], rfl⟩
  | cons c rest ih =>
    intro l0 ls h
    cases hs : splitLines rest with
    | nil => exact absurd hs (splitLines_ne_nil rest)
    | cons m0 ms =>
      rw [splitLines_cons_eq hs] at h
      by_cases hc : c = '\n'
      · rw [if_pos hc] at h
        cases h
        exact ⟨c :: rest, by simp⟩
      · rw [if_neg hc] at h
        cases h
        rcases ih hs with ⟨v, hv⟩
        exact ⟨v, by simp [hv]⟩

theorem mem_splitLines_decomp {t l : List Char} (h : l ∈ splitLines t) :
    ∃ u v, t = u ++ l ++ v := by
  induction t with
  | nil =>
    rw [splitLines] at h
    simp at h
    subst h
    exact ⟨[], [], rfl⟩
  | cons c rest ih =>
    cases hs : splitLines rest with
    | nil => exact absurd hs (splitLines_ne_nil rest)
    | cons m0 ms =>
      rw [splitLines_cons_eq hs] at h
      by_cases hc : c = '\n'
      · rw [if_pos hc] at h
        rcases List.mem_cons.mp h with rfl | hmem
        · exact ⟨[], c :: rest, rfl⟩
        · rcases ih (by rw [hs]; exact hmem) with ⟨u, v, huv⟩
          exact ⟨c :: u, v, by simp [huv]⟩
      · rw [if_neg hc] at h
        rcases List.mem_cons.mp h with rfl | hmem
        · rcases firstLine_decomp rest hs with ⟨v, hv⟩
          exact ⟨[], v, by simp [hv]⟩
        · rcases ih (by rw [hs]; exact List.mem_cons_of_mem _ hmem) with ⟨u, v, huv⟩
          exact ⟨c :: u, v, by simp [huv]⟩

theorem mem_splitLines_no_newline : ∀ (t : List Char), ∀ l ∈ splitLines t, '\n' ∉ l := by
  intro t
  induction t with
  | nil =>
    intro l hl
    rw [splitLines] at hl
    simp at hl
    subst hl
    simp
  | cons c rest ih =>
    intro l hl
    cases hs : splitLines rest with
    | nil => exact absurd hs (splitLines_ne_nil rest)
    | cons m0 ms =>
      rw [splitLines_cons_eq hs] at hl
      by_cases hc : c = '\n'
      · rw [if_pos hc] at hl
        rcases List.mem_cons.mp hl with rfl | hmem
        · simp
        · exact ih l (by rw [hs]; exact hmem)
      · rw [if_neg hc] at hl
        rcases List.mem_cons.mp hl with rfl | hmem
        · intro hmem2
          rcases List.mem_cons.mp hmem2 with h1 | h2
          · exact hc h1.symm
          · exact ih m0 (by rw [hs]; exact List.mem_cons_self _ _) h2
        · exact ih l (by rw [hs]; exact List.mem_cons_of_mem _ hmem)

/-! A term without line breaks occurs in a text exactly when it occurs in
one of its lines. -/

theorem isPrefixOf_firstLine : ∀ (pat : List Char), '\n' ∉ pat →
    ∀ (text : List Char), pat.isPrefixOf (lower text) = true →
    ∃ l0 ls, splitLines text = l0 :: ls ∧ pat.isPrefixOf (lower l0) = true := by
  intro pat
  induction pat with
  | nil =>
    intro _ text _
    cases hs : splitLines text with
    | nil => exact absurd hs (splitLines_ne_nil text)
    | cons l0 ls => exact ⟨l0, ls, rfl, by simp [List.isPrefixOf]⟩
  | cons p pat ih =>
    intro hnl text hp
    cases text with
    | nil => simp [List.isPrefixOf, lower] at hp
    | cons c rest =>
      have hlow : lower (c :: rest) = lowerChar c :: lower rest := rfl
      rw [hlow] at hp
      have hp2 := hp
      simp only [List.isPrefixOf, Bool.and_eq_true, beq_iff_eq] at hp2
      obtain ⟨hpc, hrest⟩ := hp2
      by_cases hc : c = '\n'
      · exfalso
        subst hc
        apply hnl
        rw [hpc]
        exact List.mem_cons_self _ _
      · have hnl' : '\n' ∉ pat := fun hm => hnl (List.mem_cons_of_mem _ hm)
        rcases ih hnl' rest hrest with ⟨m0, ms, hms, hm0⟩
        refine ⟨c :: m0, ms, ?_, ?_⟩
        · rw [splitLines_cons_eq hms, if_neg hc]
        · show (p :: pat).isPrefixOf (lower (c :: m0)) = true
          rw [show lower (c :: m0) = lowerChar c :: lower m0 from rfl]
          simp [List.isPrefixOf, hpc, hm0]

theorem containsSub_cons (x : Char) (t pat : List Char) (h : containsSub t pat = true) :
    containsSub (x :: t) pat = true := by
  rw [containsSub]
  simp [h]

theorem containsSub_of_isPrefixOf {t pat : List Char} (h : pat.isPrefixOf t = true) :
    containsSub t pat = true := by
  cases t with
  | nil => rw [containsSub]; exact h
  | cons x xs => rw [containsSub]; simp [h]

theorem containsSub_lower_line_exists : ∀ (text pat : List Char), pat ≠ [] → '\n' ∉ pat →
    containsSub (lower text) pat = true →
    ∃ l ∈ splitLines text, containsSub (lower l) pat = true := by
  intro text
  induction text with
  | nil =>
    intro pat hne hnl h
    rw [show lower [] = ([] : List Char) from rfl, containsSub] at h
    cases hpat : pat with
    | nil => exact absurd hpat hne
    | cons a t =>
      rw [hpat] at h
      simp [List.isPrefixOf] at h
  | cons c rest ih =>
    intro pat hne hnl h
    have hlow : lower (c :: rest) = lowerChar c :: lower rest := rfl
    rw [hlow, containsSub] at h
    cases (Bool.or_eq_true _ _).mp h with
    | inl hp =>
      have hp' : pat.isPrefixOf (lower (c :: rest)) = true := by rw [hlow]; exact hp
      rcases isPrefixOf_firstLine pat hnl (c :: rest) hp' with ⟨l0, ls, hsl, hl0⟩
      refine ⟨l0, by rw [hsl]; exact List.mem_cons_self _ _, ?_⟩
      exact containsSub_of_isPrefixOf hl0
    | inr hrest =>
      rcases ih pat hne hnl hrest with ⟨l, hl, hcl⟩
      cases hs : splitLines rest with
      | nil => exact absurd hs (splitLines_ne_nil rest)
      | cons m0 ms =>
        rw [splitLines_cons_eq hs]
        rw [hs] at hl
        by_cases hc : c = '\n'
        · rw [if_pos hc]
          exact ⟨l, List.mem_cons_of_mem _ hl, hcl⟩
        · rw [if_neg hc]
          rcases List.mem_cons.mp hl with rfl | hmem
          · refine ⟨c :: l, List.mem_cons_self _ _, ?_⟩
            rw [show lower (c :: l) = lowerChar c :: lower l from rfl]
            exact containsSub_cons _ _ _ hcl
          · exact ⟨l, List.mem_cons_of_mem _ hmem, hcl⟩

theorem containsSub_of_line {text l pat : List Char} (hl : l ∈ splitLines text)
    (h : containsSub (lower l) pat = true) : containsSub (lower text) pat = true := by
  rcases mem_splitLines_decomp hl with ⟨u, v, rfl⟩
  rcases (containsSub_iff _ _).mp h with ⟨a, b, hab⟩
  apply (containsSub_iff _ _).mpr
  refine ⟨lower u ++ a, b ++ lower v, ?_⟩
  simp only [lower, List.map_append] at hab ⊢
  rw [hab]
  simp [List.append_assoc]

theorem containsSub_lower_lines_iff (text pat : List Char) (hne : pat ≠ [])
    (hnl : '\n' ∉ pat) :
    containsSub (lower text) pat = true ↔
      ∃ l ∈ splitLines text, containsSub (lower l) pat = true :=
  ⟨containsSub_lower_line_exists text pat hne hnl,
    fun ⟨_, hl, h⟩ => containsSub_of_line hl h⟩

/-! Embedding of the component state of the application as an event-step
state machine.

A `TreeNode` component owns one `useState` boolean
(`isExpanded`, initialized to `isRoot || startExpanded`); its children are
rendered only while it is an expanded directory, each child keyed by
`name-index`.  React semantics embedded here:

* `useState` keeps the stored value on re-render — the initializer is
  evaluated only when the component instance mounts (`reconcile` keeps the
  old flag even when `startExpanded` changes);
* a child at the same position whose key (`name`, index) matches keeps its
  instance and state; otherwise the old instance is discarded and a fresh
  one mounts;
* children of a collapsed directory are not rendered, so their instances
  (and their state) are unmounted and lost;
* `KernelVisualizer` is keyed by `visualizerKey`, which only
  `handleCollapseAll` increments — a collapse-all therefore remounts the
  whole tree, while typing in the search box reconciles it. -/

/-- Directory test of the components (`node.children && node.children.length > 0`). -/
def isDir (n : KernelNode) : Bool := !n.children.isEmpty

/-- One mounted `TreeNode` component instance: the node it currently
renders, its `isExpanded` state, and its mounted children (empty unless it
is an expanded directory). -/
inductive Inst where
  | mk (node : KernelNode) (expanded : Bool) (kids : List Inst)

mutual

/-- Structural equality test for `Inst`. -/
def Inst.beq : Inst → Inst → Bool
  | Inst.mk n1 e1 k1, Inst.mk n2 e2 k2 =>
    decide (n1 = n2) && e1 == e2 && Inst.beqList k1 k2

/-- Structural equality test for lists of `Inst`. -/
def Inst.beqList : List Inst → List Inst → Bool
  | [], [] => true
  | a :: as, b :: bs => Inst.beq a b && Inst.beqList as bs
  | _, _ => false

end

mutual

theorem Inst.beq_iff_eq : ∀ (a b : Inst), Inst.beq a b = true ↔ a = b
  | Inst.mk n1 e1 k1, Inst.mk n2 e2 k2 => by
    simp [Inst.beq, Inst.beqList_iff_eq k1 k2, and_assoc]

theorem Inst.beqList_iff_eq : ∀ (as bs : List Inst), Inst.beqList as bs = true ↔ as = bs
  | [], [] => by simp [Inst.beqList]
  | [], _ :: _ => by simp [Inst.beqList]
  | _ :: _, [] => by simp [Inst.beqList]
  | a :: as, b :: bs => by
    simp [Inst.beqList, Inst.beq_iff_eq a b, Inst.beqList_iff_eq as bs]

end

instance : DecidableEq Inst := fun a b =>
  decidable_of_iff _ (Inst.beq_iff_eq a b)

namespace Inst

def node : Inst → KernelNode
  | mk n _ _ => n

def expanded : Inst → Bool
  | mk _ e _ => e

def kids : Inst → List Inst
  | mk _ _ k => k

@[simp] theorem node_mk (n e k) : (mk n e k).node = n := rfl
@[simp] theorem expanded_mk (n e k) : (mk n e k).expanded = e := rfl
@[simp] theorem kids_mk (n e k) : (mk n e k).kids = k := rfl

end Inst

mutual

/-- Mount a fresh `TreeNode` for `node`: `useState(isRoot || startExpanded)`
initializes the expansion flag; when the instance is an expanded directory
its children mount below it with the same `startExpanded` prop. -/
def mount (node : KernelNode) (isRoot startExpanded : Bool) : Inst :=
  match node with
  | KernelNode.mk nm sm ds cs =>
    let ex := isRoot || startExpanded
    Inst.mk (KernelNode.mk nm sm ds cs) ex
      (if ex && !cs.isEmpty then mountKids cs startExpanded else [])

/-- Mount a list of child `TreeNode`s (never roots). -/
def mountKids (cs : List KernelNode) (startExpanded : Bool) : List Inst :=
  match cs with
  | [] => []
  | c :: rest => mount c false startExpanded :: mountKids rest startExpanded

end

mutual

/-- Re-render an existing `TreeNode` instance with a new node and props:
`useState` keeps the stored expansion flag (its initializer is ignored
after mount); children are reconciled positionally under the `name-index`
key — same index and same name keeps the child instance, anything else
mounts a fresh one; a collapsed instance renders no children. -/
def reconcile (old : Inst) (node : KernelNode) (startExpanded : Bool) : Inst :=
  match node, old with
  | KernelNode.mk nm sm ds cs, Inst.mk _ ex okids =>
    Inst.mk (KernelNode.mk nm sm ds cs) ex
      (if ex && !cs.isEmpty then reconcileKids okids cs startExpanded else [])

/-- Positional reconciliation of a children list against the old child
instances. -/
def reconcileKids (olds : List Inst) (news : List KernelNode) (startExpanded : Bool) :
    List Inst :=
  match news, olds with
  | [], _ => []
  | n :: ns, [] => mount n false startExpanded :: reconcileKids [] ns startExpanded
  | n :: ns, o :: os =>
    (if o.node.name = n.name then reconcile o n startExpanded
     else mount n false startExpanded) :: reconcileKids os ns startExpanded

end

/-- Replace the element at an index (used to route a click to one child). -/
def updateAt {α : Type} : List α → Nat → (α → α) → List α
  | [], _, _ => []
  | x :: xs, 0, f => f x :: xs
  | x :: xs, i + 1, f => x :: updateAt xs i f

/-- `handleInteraction` of the `TreeNode` at `path` (indices into the
rendered children lists): a directory toggles its expansion — toggling open
mounts its children fresh with the current `startExpanded` prop, toggling
closed unmounts them; interacting with a leaf leaves the flag unchanged. -/
def clickAt : List Nat → Inst → Bool → Inst
  | [], Inst.mk n ex kids, se =>
    if isDir n then
      if ex then Inst.mk n false []
      else Inst.mk n true (mountKids n.children se)
    else Inst.mk n ex kids
  | i :: rest, Inst.mk n ex kids, se =>
    Inst.mk n ex (updateAt kids i fun k => clickAt rest k se)

mutual

/-- The node rendered by the component instance at `path`, if any. -/
def instNodeAt : Inst → List Nat → Option KernelNode
  | Inst.mk n _ _, [] => some n
  | Inst.mk _ _ kids, i :: rest => instKidAt kids i rest

/-- Index into the mounted children, then continue along the path. -/
def instKidAt : List Inst → Nat → List Nat → Option KernelNode
  | [], _, _ => none
  | k :: _, 0, rest => instNodeAt k rest
  | _ :: ks, i + 1, rest => instKidAt ks i rest

end

/-- The state held by the `App` component: the search term, the selected
node with its breadcrumb path, and the currently rendered tree of
`TreeNode` instances (`none` when `filterTree` returned no match and the
"no results" panel is shown instead). -/
structure AppState where
  searchTerm : List Char
  selectedNode : Option KernelNode
  selectedNodePath : List KernelNode
  inst : Option Inst

/-- The user events the `App` component reacts to. -/
inductive Event where
  | click (p : List Nat)
  | setSearch (t : List Char)
  | collapseAll
deriving DecidableEq

/-- One user event processed by `App`:

* `setSearch t` is `handleSearchChange`: store the term, clear the
  selection and path, recompute `filteredData` (`kernelData` itself when
  the term is the empty string, else `filterTree`), and re-render — the
  visualizer reconciles against its previous instance when both exist,
  mounts fresh when it reappears, and unmounts entirely on no match;
  `searchActive` is `searchTerm.length > 0`;
* `collapseAll` is `handleCollapseAll`: clear the term, selection and
  path, and bump `visualizerKey`, remounting the whole tree from
  `kernelData`;
* `click p` is a `TreeNode`'s `handleInteraction` at `p`: `onNodeSelect`
  stores the displayed node and computes `findNodePath(kernelData, node)`,
  and a directory toggles its expansion. -/
def step (kernelData : KernelNode) (e : Event) (s : AppState) : AppState :=
  match e with
  | Event.setSearch t =>
    let filteredData := if t = [] then some kernelData else filterTree kernelData t
    let inst :=
      match filteredData with
      | none => none
      | some data =>
        match s.inst with
        | none => some (mount data true !t.isEmpty)
        | some o => some (reconcile o data !t.isEmpty)
    { searchTerm := t, selectedNode := none, selectedNodePath := [], inst := inst }
  | Event.collapseAll =>
    { searchTerm := [], selectedNode := none, selectedNodePath := [],
      inst := some (mount kernelData true false) }
  | Event.click p =>
    match s.inst with
    | none => s
    | some i =>
      match instNodeAt i p with
      | none => s
      | some n =>
        { s with
          selectedNode := some n,
          selectedNodePath := findNodePath kernelData n,
          inst := some (clickAt p i !s.searchTerm.isEmpty) }

/-- The initial state of `App`: empty term, no selection, the tree mounted
from the dataset with the root pre-expanded. -/
def initState (kernelData : KernelNode) : AppState :=
  { searchTerm := [], selectedNode := none, selectedNodePath := [],
    inst := some (mount kernelData true false) }

/-- The state after a sequence of user events from the initial state. -/
def run (kernelData : KernelNode) (es : List Event) : AppState :=
  es.foldl (fun s e => step kernelData e s) (initState kernelData)

mutual

/-- Some rendered instance is a collapsed directory. -/
def hasCollapsedDir : Inst → Bool
  | Inst.mk n ex kids => (isDir n && !ex) || hasCollapsedDirKids kids

/-- Some rendered instance in the list is (or contains) a collapsed
directory. -/
def hasCollapsedDirKids : List Inst → Bool
  | [] => false
  | k :: ks => hasCollapsedDir k || hasCollapsedDirKids ks

end

/-! The root instance's expansion flag across the state machine. -/

theorem mount_root_expanded (n : KernelNode) (se : Bool) :
    (mount n true se).expanded = true := by
  cases n with
  | mk nm sm ds cs =>
    rw [mount]
    simp

theorem reconcile_expanded (o : Inst) (n : KernelNode) (se : Bool) :
    (reconcile o n se).expanded = o.expanded := by
  cases n with
  | mk nm sm ds cs =>
    cases o with
    | mk onode oex okids =>
      rw [reconcile]
      simp

theorem clickAt_cons_expanded (i : Nat) (rest : List Nat) (inst : Inst) (se : Bool) :
    (clickAt (i :: rest) inst se).expanded = inst.expanded := by
  cases inst with
  | mk n ex kids =>
    rw [clickAt]
    simp

/-- The root of the rendered tree (when one is rendered) is expanded. -/
def RootExpanded (s : AppState) : Prop :=
  ∀ i, s.inst = some i → i.expanded = true

theorem initState_rootExpanded (kd : KernelNode) : RootExpanded (initState kd) := by
  intro i hi
  rw [initState] at hi
  cases hi
  exact mount_root_expanded kd false

theorem step_rootExpanded (kd : KernelNode) (e : Event) (s : AppState)
    (he : e ≠ Event.click []) (h : RootExpanded s) : RootExpanded (step kd e s) := by
  intro i hi
  cases e with
  | setSearch t =>
    cases hfd : (if t = [] then some kd else filterTree kd t) with
    | none =>
      have hh : (step kd (Event.setSearch t) s).inst = none := by
        simp only [step, hfd]
      rw [hh] at hi
      cases hi
    | some data =>
      cases hsi : s.inst with
      | none =>
        have hh : (step kd (Event.setSearch t) s).inst = some (mount data true !t.isEmpty) := by
          simp only [step, hfd, hsi]
        rw [hh] at hi
        cases hi
        exact mount_root_expanded data _
      | some o =>
        have hh : (step kd (Event.setSearch t) s).inst
            = some (reconcile o data !t.isEmpty) := by
          simp only [step, hfd, hsi]
        rw [hh] at hi
        cases hi
        rw [reconcile_expanded]
        exact h o hsi
  | collapseAll =>
    have hh : (step kd Event.collapseAll s).inst = some (mount kd true false) := rfl
    rw [hh] at hi
    cases hi
    exact mount_root_expanded kd false
  | click p =>
    cases hsi : s.inst with
    | none =>
      have hh : step kd (Event.click p) s = s := by
        simp only [step, hsi]
      rw [hh] at hi
      exact h i hi
    | some i0 =>
      cases hn : instNodeAt i0 p with
      | none =>
        have hh : step kd (Event.click p) s = s := by
          simp only [step, hsi, hn]
        rw [hh] at hi
        exact h i hi
      | some n =>
        have hh : (step kd (Event.click p) s).inst
            = some (clickAt p i0 !s.searchTerm.isEmpty) := by
          simp only [step, hsi, hn]
        rw [hh] at hi
        cases hi
        cases p with
        | nil => exact absurd rfl he
        | cons j rest =>
          rw [clickAt_cons_expanded]
          exact h i0 hsi

theorem run_rootExpanded (kd : KernelNode) (es : List Event)
    (hes : ∀ e ∈ es, e ≠ Event.click []) : RootExpanded (run kd es) := by
  rw [run]
  have key : ∀ (evs : List Event), (∀ e ∈ evs, e ≠ Event.click []) →
      ∀ s : AppState, RootExpanded s →
        RootExpanded (evs.foldl (fun s e => step kd e s) s) := by
    intro evs
    induction evs with
    | nil => intro _ s hs; exact hs
    | cons e rest ih =>
      intro hall s hs
      rw [List.foldl_cons]
      exact ih (fun e' he' => hall e' (List.mem_cons_of_mem _ he'))
        _ (step_rootExpanded kd e s (hall e (List.mem_cons_self _ _)) hs)
  exact key es hes _ (initState_rootExpanded kd)


/-! The claims. -/

/-- C1 (counterexample): as literally stated — "a node is present in
`filterTree(T, s)` iff its name, summary, or description case-insensitively
contains `s`, or a child survives" — the claim fails for a term with
surrounding whitespace: with `T` a single node named `xa` and `s = " a"`
(whose trimmed form `a` is non-empty), the node is kept although no field
case-insensitively contains the two-character string `" a"` and there are
no children, because the filter compares against the trimmed term. -/
theorem filterTree_literal_term_cex :
    filterTree (KernelNode.mk ['x', 'a'] [] [] []) [' ', 'a']
        = some (KernelNode.mk ['x', 'a'] [] [] []) ∧
      containsSub (lower ['x', 'a']) (lower [' ', 'a']) = false ∧
      containsSub (lower []) (lower [' ', 'a']) = false ∧
      (KernelNode.mk ['x', 'a'] [] [] []).children = [] := by decide

/-- C1 (amended): for every tree and every term whose trimmed lowercased
form is non-empty, a kept node keeps its name, summary and description, its
children are exactly the surviving children in their original relative
order (`filterMap`), and the result is non-null iff the node's name,
summary, or description case-insensitively contains the *trimmed* term or
at least one child survives filtering recursively. -/
theorem filterTree_characterization (t : KernelNode) (s : List Char)
    (h : trim (lower s) ≠ []) :
    (∀ t', filterTree t s = some t' →
        t'.name = t.name ∧ t'.summary = t.summary ∧ t'.description = t.description ∧
        t'.children = t.children.filterMap fun c => filterTree c s) ∧
    ((filterTree t s).isSome = true ↔
      (selfMatch t (trim (lower s)) = true ∨
        ∃ c ∈ t.children, (filterTree c s).isSome = true)) := by
  refine ⟨?_, filterTree_isSome_iff t s h⟩
  intro t' ht'
  cases t with
  | mk nm sm ds cs =>
    rw [filterTree_eq_of_ne nm sm ds cs s h] at ht'
    split at ht'
    · cases ht'
      have hfc : filterChildren cs (trim (lower s))
          = cs.filterMap fun c => filterTree c s := by
        rw [filterChildren_eq_filterMap]
        have hfun : (fun c => filterTree c (trim (lower s))) = fun c => filterTree c s :=
          funext fun c => filterTree_canon c s
        rw [hfun]
      simp [hfc]
    · cases ht'

/-- Witness for the amended C1 at a concrete tree and term `B` (exercising
case-insensitivity): the filtered root keeps its fields and its children
are the `filterMap` of the original children. -/
theorem filterTree_characterization_witness :
    trim (lower ['B']) ≠ [] ∧
      ((KernelNode.mk ['r'] [] [] [KernelNode.mk ['b'] [] [] []]).name
          = (KernelNode.mk ['r'] [] []
              [KernelNode.mk ['b'] [] [] [], KernelNode.mk ['c'] [] [] []]).name ∧
        (KernelNode.mk ['r'] [] [] [KernelNode.mk ['b'] [] [] []]).summary
          = (KernelNode.mk ['r'] [] []
              [KernelNode.mk ['b'] [] [] [], KernelNode.mk ['c'] [] [] []]).summary ∧
        (KernelNode.mk ['r'] [] [] [KernelNode.mk ['b'] [] [] []]).description
          = (KernelNode.mk ['r'] [] []
              [KernelNode.mk ['b'] [] [] [], KernelNode.mk ['c'] [] [] []]).description ∧
        (KernelNode.mk ['r'] [] [] [KernelNode.mk ['b'] [] [] []]).children
          = (KernelNode.mk ['r'] [] []
              [KernelNode.mk ['b'] [] [] [], KernelNode.mk ['c'] [] [] []]).children.filterMap
              fun c => filterTree c ['B']) :=
  ⟨by decide,
    (filterTree_characterization
        (KernelNode.mk ['r'] [] [] [KernelNode.mk ['b'] [] [] [], KernelNode.mk ['c'] [] [] []])
        ['B'] (by decide)).1
      (KernelNode.mk ['r'] [] [] [KernelNode.mk ['b'] [] [] []]) (by decide)⟩

/-- C2 (code evaluated at the failing input): `filterTree` rebuilds every
kept node, so a node selected from the filtered view is not found in the
canonical tree by `findNodePath` and the breadcrumb path is empty.  With
dataset `a{b, c}` and term `b`, the filtered tree is a *new* root `a{b}`;
selecting it while the filter is active stores it as the selection but
resolves an empty path — the claim promised a full non-empty path. -/
theorem breadcrumb_empty_after_filtered_select :
    filterTree (KernelNode.mk ['a'] [] []
        [KernelNode.mk ['b'] [] [] [], KernelNode.mk ['c'] [] [] []]) ['b']
      = some (KernelNode.mk ['a'] [] [] [KernelNode.mk ['b'] [] [] []]) ∧
    (run (KernelNode.mk ['a'] [] []
        [KernelNode.mk ['b'] [] [] [], KernelNode.mk ['c'] [] [] []])
      [Event.setSearch ['b'], Event.click []]).searchTerm ≠ [] ∧
    (run (KernelNode.mk ['a'] [] []
        [KernelNode.mk ['b'] [] [] [], KernelNode.mk ['c'] [] [] []])
      [Event.setSearch ['b'], Event.click []]).selectedNode
      = some (KernelNode.mk ['a'] [] [] [KernelNode.mk ['b'] [] [] []]) ∧
    (run (KernelNode.mk ['a'] [] []
        [KernelNode.mk ['b'] [] [] [], KernelNode.mk ['c'] [] [] []])
      [Event.setSearch ['b'], Event.click []]).selectedNodePath = [] ∧
    findNodePath
      (KernelNode.mk ['a'] [] []
        [KernelNode.mk ['b'] [] [] [], KernelNode.mk ['c'] [] [] []])
      (KernelNode.mk ['a'] [] [] [KernelNode.mk ['b'] [] [] []]) = [] := by decide

/-- C3 (counterexample): the filter's self-match predicate trims the term
while the highlight engine uses it raw, so for the term `" a"` and a node
named `ab` the node self-matches (the trimmed term `a` occurs) yet no text
field produces a matched span (the literal `" a"` occurs nowhere). -/
theorem selfMatch_highlight_mismatch_cex :
    selfMatch (KernelNode.mk ['a', 'b'] [] [] []) (trim (lower [' ', 'a'])) = true ∧
      nodeHighlightHit (KernelNode.mk ['a', 'b'] [] [] []) [' ', 'a'] = false := by decide

/-- C3 (amended): for every node and every non-empty term that equals its
own trimmed form and contains no line break, the node self-matches under
the filter's predicate iff the highlight engine produces at least one
matched span on its name, summary (inline mode) or description
(multi-line mode).  The whitespace restriction is forced by the
counterexample; the line-break restriction is forced because multi-line
highlighting matches within individual lines while the filter's
containment test sees the whole description. -/
theorem selfMatch_iff_highlight_hit (n : KernelNode) (term : List Char)
    (h1 : term ≠ []) (h2 : trim term = term) (h3 : '\n' ∉ term) :
    (selfMatch n (trim (lower term)) = true ↔ nodeHighlightHit n term = true) := by
  have hlt : trim (lower term) = lower term := trim_lower_eq_lower term h2
  have hlne : lower term ≠ [] := fun hc => h1 (List.map_eq_nil_iff.mp hc)
  have htrimne : trim term ≠ [] := by rw [h2]; exact h1
  have hnl : '\n' ∉ lower term := fun hm => h3 ((mem_newline_lower term).mp hm)
  have hinl : ∀ f : List Char, hasMatched (locateMatchesInline f term)
      = containsSub (lower f) (lower term) := by
    intro f
    rw [locateMatchesInline, if_neg htrimne, hasMatched_lineSpans _ _ h1,
      splitOnce_isSome term h1]
  have hmulti : (locateMatchesMulti n.description term).any hasMatched = true
      ↔ containsSub (lower n.description) (lower term) = true := by
    rw [locateMatchesMulti, if_neg htrimne, List.any_eq_true]
    constructor
    · rintro ⟨x, hx, hpx⟩
      rcases List.mem_map.mp hx with ⟨l, hl, rfl⟩
      rw [hasMatched_lineSpans _ _ h1, splitOnce_isSome term h1] at hpx
      exact containsSub_of_line hl hpx
    · intro hc
      rcases containsSub_lower_line_exists _ _ hlne hnl hc with ⟨l, hl, hcl⟩
      refine ⟨lineSpans term l, List.mem_map.mpr ⟨l, hl, rfl⟩, ?_⟩
      rw [hasMatched_lineSpans _ _ h1, splitOnce_isSome term h1]
      exact hcl
  have hD : (locateMatchesMulti n.description term).any hasMatched
      = containsSub (lower n.description) (lower term) := by
    cases hX : (locateMatchesMulti n.description term).any hasMatched with
    | false =>
      cases hC : containsSub (lower n.description) (lower term) with
      | false => rfl
      | true =>
        have := hmulti.mpr hC
        rw [hX] at this
        cases this
    | true =>
      cases hC : containsSub (lower n.description) (lower term) with
      | false =>
        have := hmulti.mp hX
        rw [hC] at this
        cases this
      | true => rfl
  rw [hlt]
  unfold selfMatch nodeHighlightHit
  rw [hinl n.name, hinl n.summary, hD]

/-- Witness for the amended C3 at a node named `aB` and term `b`: the node
self-matches and the highlight engine produces a matched span. -/
theorem selfMatch_iff_highlight_hit_witness :
    ['b'] ≠ ([] : List Char) ∧ trim ['b'] = ['b'] ∧ '\n' ∉ (['b'] : List Char) ∧
      (selfMatch (KernelNode.mk ['a', 'B'] [] [] []) (trim (lower ['b'])) = true ↔
        nodeHighlightHit (KernelNode.mk ['a', 'B'] [] [] []) ['b'] = true) :=
  ⟨by decide, by decide, by decide,
    selfMatch_iff_highlight_hit (KernelNode.mk ['a', 'B'] [] [] []) ['b']
      (by decide) (by decide) (by decide)⟩

/-- C4 (counterexample): the root is a directory like any other in
`handleInteraction`, so a single click on the root toggles it collapsed —
a reachable state in which the root is not expanded. -/
theorem root_collapse_cex :
    ((run (KernelNode.mk ['r'] [] [] [KernelNode.mk ['c'] [] [] []])
        [Event.click []]).inst).map Inst.expanded = some false := by decide

/-- C4 (amended): the root instance is expanded in every state reachable
by a sequence of events that never clicks the root itself — every mount
(`isRoot` forces the initial flag), reconciliation, collapse-all remount,
and click elsewhere preserves it; only a direct interaction with the root
directory toggles it collapsed. -/
theorem root_expanded_without_root_click (kd : KernelNode) (es : List Event)
    (hes : ∀ e ∈ es, e ≠ Event.click []) :
    ∀ i, (run kd es).inst = some i → i.expanded = true :=
  run_rootExpanded kd es hes

/-- Witness for the amended C4: after searching, clicking a child, and
collapse-all, the remounted root is expanded. -/
theorem root_expanded_without_root_click_witness :
    (mount (KernelNode.mk ['r'] [] [] [KernelNode.mk ['c'] [] [] []]) true false).expanded
      = true :=
  root_expanded_without_root_click
    (KernelNode.mk ['r'] [] [] [KernelNode.mk ['c'] [] [] []])
    [Event.setSearch ['c'], Event.click [0], Event.collapseAll]
    (by decide) _ (by decide)

/-- C5 (code evaluated at the failing input): `startExpanded` feeds only the
`useState` initializer, which React ignores for instances that survive
reconciliation.  With dataset `r{a{x}}` (directory `a` mounted collapsed at
start-up) and the search `x` (which keeps the whole tree), the displayed
filtered tree still contains `a` as a collapsed directory although the
search is active — the claim said every displayed node is expanded. -/
theorem collapsed_dir_during_active_search :
    (run (KernelNode.mk ['r'] [] [] [KernelNode.mk ['a'] [] []
        [KernelNode.mk ['x'] [] [] []]]) [Event.setSearch ['x']]).searchTerm = ['x'] ∧
    filterTree (KernelNode.mk ['r'] [] [] [KernelNode.mk ['a'] [] []
        [KernelNode.mk ['x'] [] [] []]]) ['x']
      = some (KernelNode.mk ['r'] [] [] [KernelNode.mk ['a'] [] []
          [KernelNode.mk ['x'] [] [] []]]) ∧
    (run (KernelNode.mk ['r'] [] [] [KernelNode.mk ['a'] [] []
        [KernelNode.mk ['x'] [] [] []]]) [Event.setSearch ['x']]).inst.map hasCollapsedDir
      = some true := by decide

/-- C6 (counterexample): in multi-line mode the engine splits on `'\n'`
and the separators appear in no span, so concatenating all spans of
`"a\nb"` highlighted with `b` yields `"ab"`, not the original text. -/
theorem highlight_concat_drops_newline_cex :
    spansText ((locateMatchesMulti ['a', '\n', 'b'] ['b']).flatten)
      ≠ ['a', '\n', 'b'] := by decide

/-- A list without line breaks passes the `noNewline` check. -/
theorem noNewline_of_not_mem {l : List Char} (h : '\n' ∉ l) : noNewline l = true := by
  simp only [noNewline, List.all_eq_true]
  intro c hc
  simp only [Bool.not_eq_true', decide_eq_false_iff_not]
  intro hcc
  exact h (hcc ▸ hc)

/-- C6 (amended): inline-mode spans concatenate to exactly the text; in
multi-line mode the per-line spans concatenate to exactly each line, and
joining the lines with a line break restores the text (flat concatenation
omits only the separators); spans alternate plain/matched with no gaps or
overlaps, and no span — hence no match — spans a line break. -/
theorem highlight_span_reconstruction (text term : List Char) :
    spansText (locateMatchesInline text term) = text ∧
    joinLines ((locateMatchesMulti text term).map spansText) = text ∧
    altCheck (locateMatchesInline text term) = true ∧
    (locateMatchesMulti text term).all altCheck = true ∧
    (locateMatchesMulti text term).all (fun l => l.all fun sp => noNewline (Span.text sp))
      = true := by
  by_cases ht : trim term = []
  · have e1 : locateMatchesInline text term = [Span.plain text] := by
      rw [locateMatchesInline, if_pos ht]
    have e2 : locateMatchesMulti text term = (splitLines text).map fun l => [Span.plain l] := by
      rw [locateMatchesMulti, if_pos ht]
    refine ⟨?_, ?_, ?_, ?_, ?_⟩
    · rw [e1]
      simp [spansText, Span.text]
    · rw [e2, List.map_map]
      have hcomp : (spansText ∘ fun l => [Span.plain l]) = id :=
        funext fun l => by simp [spansText, Span.text]
      rw [hcomp, List.map_id, joinLines_splitLines]
    · rw [e1]
      rfl
    · rw [e2]
      simp only [List.all_eq_true]
      intro x hx
      rcases List.mem_map.mp hx with ⟨l, _, rfl⟩
      rfl
    · rw [e2]
      simp only [List.all_eq_true]
      intro x hx
      rcases List.mem_map.mp hx with ⟨l, hl, rfl⟩
      intro sp hsp
      have hsp2 : sp = Span.plain l := by simpa using hsp
      subst hsp2
      exact noNewline_of_not_mem (mem_splitLines_no_newline text l hl)
  · have hterm : term ≠ [] := fun hc => ht (by rw [hc]; rfl)
    have e1 : locateMatchesInline text term = lineSpans term text := by
      rw [locateMatchesInline, if_neg ht]
    have e2 : locateMatchesMulti text term = (splitLines text).map fun l => lineSpans term l := by
      rw [locateMatchesMulti, if_neg ht]
    refine ⟨?_, ?_, ?_, ?_, ?_⟩
    · rw [e1]
      exact spansText_lineSpans term text
    · rw [e2, List.map_map]
      have hcomp : (spansText ∘ fun l => lineSpans term l) = id :=
        funext fun l => spansText_lineSpans term l
      rw [hcomp, List.map_id, joinLines_splitLines]
    · rw [e1]
      exact altCheck_lineSpans term text
    · rw [e2]
      simp only [List.all_eq_true]
      intro x hx
      rcases List.mem_map.mp hx with ⟨l, _, rfl⟩
      exact altCheck_lineSpans term l
    · rw [e2]
      simp only [List.all_eq_true]
      intro x hx
      rcases List.mem_map.mp hx with ⟨l, hl, rfl⟩
      have hnl : noNewline l = true :=
        noNewline_of_not_mem (mem_splitLines_no_newline text l hl)
      exact fun sp hsp => List.all_eq_true.mp (noNewline_lineSpans term l hnl) sp hsp

/-- C7: for a well-formed tree (no duplicate subtrees) and any node
reachable from the root, the depth-first pre-order search of
`findNodePath` returns a non-empty path that starts at the root, ends at
the target, and in which every element's successor is one of its
children. -/
theorem findNodePath_valid (R N : KernelNode) (_hwf : (subtrees R).Nodup)
    (hN : N ∈ subtrees R) :
    findNodePath R N ≠ [] ∧ (findNodePath R N).head? = some R ∧
      (findNodePath R N).getLast? = some N ∧
      List.Chain' (fun a b => b ∈ a.children) (findNodePath R N) := by
  have hsome := searchPath_isSome_of_mem (N := N) R hN
  cases hp : searchPath N R with
  | none =>
    rw [hp] at hsome
    cases hsome
  | some p =>
    obtain ⟨h1, h2, h3⟩ := searchPath_spec R hp
    have hfp : findNodePath R N = p := by
      rw [findNodePath, hp]
      rfl
    rw [hfp]
    refine ⟨?_, h1, h2, h3⟩
    intro hnil
    rw [hnil] at h1
    cases h1

/-- Witness for C7 on the two-node tree `r{c}` with target `c`. -/
theorem findNodePath_valid_witness :
    (subtrees (KernelNode.mk ['r'] [] [] [KernelNode.mk ['c'] [] [] []])).Nodup ∧
      KernelNode.mk ['c'] [] [] []
        ∈ subtrees (KernelNode.mk ['r'] [] [] [KernelNode.mk ['c'] [] [] []]) ∧
      (findNodePath (KernelNode.mk ['r'] [] [] [KernelNode.mk ['c'] [] [] []])
          (KernelNode.mk ['c'] [] [] []) ≠ [] ∧
        (findNodePath (KernelNode.mk ['r'] [] [] [KernelNode.mk ['c'] [] [] []])
            (KernelNode.mk ['c'] [] [] [])).head?
          = some (KernelNode.mk ['r'] [] [] [KernelNode.mk ['c'] [] [] []]) ∧
        (findNodePath (KernelNode.mk ['r'] [] [] [KernelNode.mk ['c'] [] [] []])
            (KernelNode.mk ['c'] [] [] [])).getLast?
          = some (KernelNode.mk ['c'] [] [] []) ∧
        List.Chain' (fun a b => b ∈ a.children)
          (findNodePath (KernelNode.mk ['r'] [] [] [KernelNode.mk ['c'] [] [] []])
            (KernelNode.mk ['c'] [] [] []))) :=
  ⟨by decide, by decide,
    findNodePath_valid (KernelNode.mk ['r'] [] [] [KernelNode.mk ['c'] [] [] []])
      (KernelNode.mk ['c'] [] [] []) (by decide) (by decide)⟩

/-- C8: a term whose trimmed form is empty (including the empty string)
makes `filterTree` an identity pass-through: it returns the very tree it
was given. -/
theorem filterTree_empty_term_identity (t : KernelNode) (term : List Char)
    (h : trim term = []) : filterTree t term = some t := by
  cases t with
  | mk nm sm ds cs =>
    rw [filterTree, if_pos (trim_lower_eq_nil term h)]

/-- Witness for C8: filtering any tree by a pure-whitespace term returns it
unchanged. -/
theorem filterTree_empty_term_identity_witness :
    trim [' ', '\t'] = [] ∧
      filterTree (KernelNode.mk ['r'] [] [] [KernelNode.mk ['c'] [] [] []]) [' ', '\t']
        = some (KernelNode.mk ['r'] [] [] [KernelNode.mk ['c'] [] [] []]) :=
  ⟨by decide,
    filterTree_empty_term_identity
      (KernelNode.mk ['r'] [] [] [KernelNode.mk ['c'] [] [] []]) [' ', '\t'] (by decide)⟩

/-- C9: when no node of the tree self-matches a non-empty trimmed term,
`filterTree` returns the explicit `null` (`none`) — it is a total function,
not an exception — and the application then renders no tree at all (the
state machine's `inst` is `none`, which `App` displays as the "no results"
panel). -/
theorem filterTree_no_match_none (t : KernelNode) (term : List Char) (st : AppState)
    (h1 : trim (lower term) ≠ [])
    (h2 : ∀ n ∈ subtrees t, selfMatch n (trim (lower term)) = false) :
    filterTree t term = none ∧ (step t (Event.setSearch term) st).inst = none := by
  have hnone : filterTree t term = none := by
    cases hf : filterTree t term with
    | none => rfl
    | some t' =>
      exfalso
      have hs : (filterTree t term).isSome = true := by rw [hf]; rfl
      rcases filterTree_some_exists_match t term h1 hs with ⟨m, hm, hmm⟩
      rw [h2 m hm] at hmm
      cases hmm
  have hterm : term ≠ [] := by
    intro hc
    subst hc
    exact h1 rfl
  refine ⟨hnone, ?_⟩
  simp only [step, if_neg hterm, hnone]

/-- Witness for C9: searching the one-node tree `a` for `z` yields no match
and the application state renders no tree. -/
theorem filterTree_no_match_none_witness :
    trim (lower ['z']) ≠ [] ∧
      filterTree (KernelNode.mk ['a'] [] [] []) ['z'] = none ∧
      (step (KernelNode.mk ['a'] [] [] []) (Event.setSearch ['z'])
        (initState (KernelNode.mk ['a'] [] [] []))).inst = none :=
  ⟨by decide,
    (filterTree_no_match_none (KernelNode.mk ['a'] [] [] []) ['z']
        (initState (KernelNode.mk ['a'] [] [] [])) (by decide) (by decide)).1,
    (filterTree_no_match_none (KernelNode.mk ['a'] [] [] []) ['z']
        (initState (KernelNode.mk ['a'] [] [] [])) (by decide) (by decide)).2⟩

/-- C10: the search-change handler always clears the selection and the
breadcrumb path, whatever the previous state and whatever the new term. -/
theorem search_change_clears_selection (kd : KernelNode) (t : List Char) (s : AppState) :
    (step kd (Event.setSearch t) s).selectedNode = none ∧
      (step kd (Event.setSearch t) s).selectedNodePath = [] :=
  ⟨rfl, rfl⟩
